import Mathlib

/-
  Verification of the data-link-layer error-detection primitives of the
  network-layer simulator (src/CamadaEnlace/deteccao_erros.py and
  src/Utilidades/utils.py).

  Bit strings ('0'/'1' Python strings) are modelled as `List Bool`
  ('1' ↦ true, '0' ↦ false).  Python functions that can raise are modelled
  as `Except PyErr`.  Python `int(s, 2)` on a binary string is `bitsToNat`
  (MSB first); it raises `ValueError` on the empty string, which the
  callers model explicitly.
-/

/-- Python runtime exceptions that the modelled code can raise. -/
inductive PyErr where
  | zeroDivisionError
  | valueError
deriving DecidableEq

/-- Python `int(s, 2)` on a nonempty binary string: MSB-first value. -/
def bitsToNat (l : List Bool) : Nat :=
  l.foldl (fun a b => 2 * a + (if b then 1 else 0)) 0

/-- Python `bin(v)[2:]`: minimal binary digits of `v`, MSB first ("0" for 0).
    The `fuel` (first argument of the aux) bounds the recursion; `fuel = v`
    suffices because the digit count of `v ≥ 1` is at most `v`. -/
def natBinAux : Nat → Nat → List Bool
  | 0, _ => []
  | fuel + 1, v =>
    if v = 0 then [] else natBinAux fuel (v / 2) ++ [decide (v % 2 = 1)]

def natBin (v : Nat) : List Bool :=
  if v = 0 then [false] else natBinAux v v

/-- Python `str.zfill(w)` on a binary string / `format(v, '0wb')` padding:
    left-pad with zeros up to width `w` (no-op if already at least `w`). -/
def zfill (w : Nat) (s : List Bool) : List Bool :=
  List.replicate (w - s.length) false ++ s

/-- Python slice `l[-(k):]` (used as `data[-(n-1):]`): for `k = 0` this is
    `l[0:]`, the whole list; for `k > 0` the last `k` elements. -/
def lastSlice (k : Nat) (l : List Bool) : List Bool :=
  if k = 0 then l else l.drop (l.length - k)

/-- Python slice `s[:i]` with an `Int` index (clamping semantics). -/
def pySliceUpto (i : Int) (s : List Bool) : List Bool :=
  if 0 ≤ i then s.take i.toNat else s.take (s.length - (-i).toNat)

/-- Python slice `s[i:]` with an `Int` index (clamping semantics). -/
def pySliceFrom (i : Int) (s : List Bool) : List Bool :=
  if 0 ≤ i then s.drop i.toNat else s.drop (s.length - (-i).toNat)

/-
  ErrorDetector.add_even_parity / check_even_parity
  (src/CamadaEnlace/deteccao_erros.py, lines 12-24).
-/

/-- `add_even_parity`: append '1' iff the count of '1' bits is odd. -/
def add_even_parity (b : List Bool) : List Bool :=
  b ++ [decide (b.count true % 2 ≠ 0)]

/-- `check_even_parity`: true iff the count of '1' bits is even. -/
def check_even_parity (c : List Bool) : Bool :=
  decide (c.count true % 2 = 0)

/-- Flipping the bit at position `i` — models the corrupted frame in the
    single-bit-flip claims (not a function of the program itself). -/
def flipAt (l : List Bool) (i : Nat) : List Bool :=
  l.set i (!(l.getD i false))

theorem count_add_even_parity (b : List Bool) :
    (add_even_parity b).count true % 2 = 0 := by
  unfold add_even_parity
  rcases Nat.mod_two_eq_zero_or_one (b.count true) with h | h <;>
    simp [List.count_append, h] <;> omega

theorem count_flipAt (l : List Bool) (i : Nat) (h : i < l.length) :
    (flipAt l i).count true % 2 = (l.count true + 1) % 2 := by
  induction l generalizing i with
  | nil => simp at h
  | cons x t ih =>
    cases i with
    | zero =>
      cases x <;> simp [flipAt, List.count_cons] <;> omega
    | succ j =>
      have hj : j < t.length := by simpa using h
      have hrec := ih j hj
      unfold flipAt at hrec ⊢
      cases x <;> simp [List.count_cons] at hrec ⊢ <;> omega

/-- Claim C5: for every bit string b, including the empty string,
    check_even_parity (add_even_parity b) returns True. -/
theorem check_even_parity_add_even_parity (b : List Bool) :
    check_even_parity (add_even_parity b) = true := by
  simp [check_even_parity, count_add_even_parity b]

/-- Claim C6: flipping exactly one bit of add_even_parity b, at any valid
    position i, makes check_even_parity return False. -/
theorem check_even_parity_flip (b : List Bool) (i : Nat)
    (h : i < (add_even_parity b).length) :
    check_even_parity (flipAt (add_even_parity b) i) = false := by
  have h0 := count_add_even_parity b
  have h1 := count_flipAt (add_even_parity b) i h
  have h2 : (flipAt (add_even_parity b) i).count true % 2 = 1 := by omega
  simp [check_even_parity, h2]

/-- Claim C6, witness: the theorem instantiated at b = [], i = 0. -/
theorem check_even_parity_flip_witness :
    0 < (add_even_parity []).length ∧
      check_even_parity (flipAt (add_even_parity []) 0) = false :=
  ⟨by decide, check_even_parity_flip [] 0 (by decide)⟩

/-
  ErrorDetector.calculate_checksum / add_checksum / verify_checksum /
  verify_checksum_simple (src/CamadaEnlace/deteccao_erros.py, lines 70-190).
-/

/-- The word-sum loop shared by calculate_checksum and verify_checksum:
    for i in range(n): total += int(bits[i*w : i*w+w], 2). -/
def sumWords (w : Nat) (bits : List Bool) (n : Nat) : Nat :=
  (List.range n).foldl (fun acc i => acc + bitsToNat ((bits.drop (i * w)).take w)) 0

/-- The end-around-carry loop:
    while total > max: total = (total & max) + (total >> w),
    with max = 2^w - 1, so `& max` is `% 2^w` and `>> w` is `/ 2^w`.
    `fuel = total` bounds the iterations: for w ≥ 1 each pass strictly
    decreases total (the unreachable w = 0 case would not terminate in
    Python either, but is cut off earlier by ZeroDivisionError). -/
def foldCarryFuel (w : Nat) : Nat → Nat → Nat
  | 0, total => total
  | fuel + 1, total =>
    if 2 ^ w - 1 < total then foldCarryFuel w fuel (total % 2 ^ w + total / 2 ^ w)
    else total

def foldCarry (w total : Nat) : Nat := foldCarryFuel w total total

/-- `calculate_checksum`: pad to a word multiple, sum the words, fold the
    carry, return the one's complement formatted to `cb` bits.
    Python raises ZeroDivisionError at `len % 0` when cb = 0 and
    ValueError at `1 << cb` when cb < 0; `(~total) & max` equals
    `max - total` for `total ≤ max`, which the carry fold guarantees. -/
def calculate_checksum (data : List Bool) (cb : Int) : Except PyErr (List Bool) :=
  if cb = 0 then .error .zeroDivisionError
  else
    let r := Int.fmod (data.length : Int) cb
    let padded := if r ≠ 0 then data ++ List.replicate (cb - r).toNat false else data
    let numWords := Int.fdiv (padded.length : Int) cb
    let total := sumWords cb.toNat padded numWords.toNat
    if cb < 0 then .error .valueError
    else
      let w := cb.toNat
      let maxv := 2 ^ w - 1
      let folded := foldCarry w total
      .ok (zfill w (natBin (maxv - folded)))

/-- `add_checksum`: data concatenated with its checksum. -/
def add_checksum (data : List Bool) (cb : Int) : Except PyErr (List Bool) :=
  (calculate_checksum data cb).map (fun c => data ++ c)

/-- `verify_checksum`: recompute the checksum of the data part (the result
    is unused, but the call is kept because its exceptions propagate), then
    re-sum all full words of data + received checksum with carry folding
    and test the folded total against zero.  On the `.ok` path `cb > 0`,
    so Python's `len // cb` is `Nat` division by `cb.toNat`. -/
def verify_checksum (dwc : List Bool) (cb : Int) : Except PyErr Bool :=
  let data_bits := pySliceUpto (-cb) dwc
  match calculate_checksum data_bits cb with
  | .error e => .error e
  | .ok _calculated =>
    let w := cb.toNat
    let numWords := dwc.length / w
    let total := sumWords w dwc numWords
    let folded := foldCarry w total
    .ok (decide (folded = 0))

/-- `verify_checksum_simple`: split off the received checksum, recompute
    over the data part, compare the two strings. -/
def verify_checksum_simple (dwc : List Bool) (cb : Int) :
    Except PyErr (Bool × List Bool × List Bool) :=
  let data_bits := pySliceUpto (-cb) dwc
  let received := pySliceFrom (-cb) dwc
  match calculate_checksum data_bits cb with
  | .error e => .error e
  | .ok calculated => .ok (decide (calculated = received), calculated, received)

/-- The bits of "01000001" (0x41, ASCII 'A'). -/
def bitsA : List Bool :=
  [false, true, false, false, false, false, false, true]

/-- The bits of "010000010100001001000011" ("ABC" in 8-bit ASCII). -/
def bitsABC : List Bool :=
  [false, true, false, false, false, false, false, true,
   false, true, false, false, false, false, true, false,
   false, true, false, false, false, false, true, true]

/-- Claim C8: calculate_checksum "010000010100001001000011" 8 returns
    exactly "00111001" (complement of (0x41+0x42+0x43) mod 256 = 0x39). -/
theorem calculate_checksum_abc_8 :
    calculate_checksum bitsABC 8 =
      .ok [false, false, true, true, true, false, false, true] := by
  rfl

/-- Claim C1: the spec requires verify_checksum (add_checksum data cb) cb
    to be True for cb ∈ {8,16,32}; the code instead folds data plus
    checksum to the all-ones word (255 here) and compares it against 0,
    so it returns False even on this unmodified frame — a code bug.
    Evaluation at the failing input data = "01000001", cb = 8. -/
theorem verify_checksum_roundtrip_fails_bug :
    (add_checksum bitsA 8).bind (fun dwc => verify_checksum dwc 8) =
      .ok false := by
  rfl

/-- Claim C3: the spec requires the two verifiers to agree on uncorrupted
    data; at data = "01000001", cb = 8 the sum-to-zero verifier returns
    False while the recompute-and-compare verifier returns True — a code
    bug (same root cause as C1: the fold is compared against 0 instead of
    the all-ones word). -/
theorem verify_checksum_styles_disagree_bug :
    (add_checksum bitsA 8).bind (fun dwc => verify_checksum dwc 8) =
        .ok false ∧
      (add_checksum bitsA 8).bind
          (fun dwc => (verify_checksum_simple dwc 8).map (fun t => t.1)) =
        .ok true := by
  constructor <;> rfl

/-- Claim C4: for every bit string and every non-positive width,
    calculate_checksum fails (Python: ZeroDivisionError at the modulo for
    width 0, ValueError at the shift for negative widths). -/
theorem calculate_checksum_nonpositive_width_fails
    (data : List Bool) (cb : Int) (h : cb ≤ 0) :
    ∃ e, calculate_checksum data cb = Except.error e := by
  by_cases h0 : cb = 0
  · exact ⟨.zeroDivisionError, by simp [calculate_checksum, h0]⟩
  · have hneg : cb < 0 := lt_of_le_of_ne h h0
    refine ⟨.valueError, ?_⟩
    unfold calculate_checksum
    rw [if_neg h0]
    simp only [if_pos hneg]

/-- Claim C4, witness: the theorem instantiated at data = "1", cb = -3. -/
theorem calculate_checksum_nonpositive_width_fails_witness :
    ((-3 : Int) ≤ 0) ∧ ∃ e, calculate_checksum [true] (-3) = Except.error e :=
  ⟨by decide, calculate_checksum_nonpositive_width_fails [true] (-3) (by decide)⟩

/-
  ErrorDetector._crc_division_engine / generate_crc / check_crc
  (src/CamadaEnlace/deteccao_erros.py, lines 26-68).
-/

/-- The IEEE 802.3 CRC-32 generator polynomial constant (33 bits). -/
def CRC32_POLY : Nat := 0x104C11DB7

/-- `bin(CRC32_POLY)[2:]` as a bit list (33 bits, leading bit 1). -/
def polyBits : List Bool := natBin CRC32_POLY

/-- Pointwise XOR of two bit lists (truncating at the shorter one);
    Python `^` on 0/1 ints is Boolean xor. -/
def zx (a b : List Bool) : List Bool := List.zipWith xor a b

/-- The inner j-loop of the division engine at the current front position:
    `for j in range(n): data[i+j] ^= poly[j]` — XOR the polynomial into the
    leading window, keep the rest. -/
def xorInto (p d : List Bool) : List Bool := zx p d ++ d.drop p.length

/-- One outer-loop step at the current front position: XOR the polynomial
    in iff the current leading data bit is 1. -/
def stepXor (p d : List Bool) : List Bool :=
  if d.headD false then xorInto p d else d

/-- The outer i-loop of the division engine, recast as front-to-back
    recursion: step i only reads and writes indices ≥ i, so processing the
    head and recursing on the tail reproduces the in-place loop.  The loop
    runs `len(data) - n + 1` times (none when the data is shorter than the
    polynomial); `fuel = data.length` therefore suffices. -/
def crcEngineFuel (p : List Bool) : Nat → List Bool → List Bool
  | 0, d => d
  | fuel + 1, d =>
    if d.length < p.length then d
    else
      match stepXor p d with
      | [] => []
      | b :: rest => b :: crcEngineFuel p fuel rest

/-- `_crc_division_engine data poly`: run the division loop, return the
    trailing `n - 1` bits of the mutated buffer (`data[-(n-1):]`). -/
def crc_division_engine (data_bits p : List Bool) : List Bool :=
  lastSlice (p.length - 1) (crcEngineFuel p data_bits.length data_bits)

/-- `generate_crc`: pad with n-1 zeros, divide, zfill the remainder. -/
def generate_crc (data : List Bool) : List Bool :=
  let n := polyBits.length
  let padded := data ++ List.replicate (n - 1) false
  zfill (n - 1) (crc_division_engine padded polyBits)

/-- `check_crc`: divide the received frame directly and return the integer
    value of the remainder; `int('', 2)` raises ValueError, which happens
    exactly when the frame is empty. -/
def check_crc (frame : List Bool) : Except PyErr Nat :=
  let rem := crc_division_engine frame polyBits
  if rem.isEmpty then .error .valueError else .ok (bitsToNat rem)

theorem polyBits_length : polyBits.length = 33 := by rfl

theorem polyBits_headD : polyBits.headD false = true := by rfl

theorem zx_length (a b : List Bool) : (zx a b).length = min a.length b.length := by
  simp [zx]

theorem xorInto_length (p d : List Bool) (h : p.length ≤ d.length) :
    (xorInto p d).length = d.length := by
  simp [xorInto, zx]
  omega

theorem stepXor_length (p d : List Bool) (h : p.length ≤ d.length) :
    (stepXor p d).length = d.length := by
  unfold stepXor
  split
  · exact xorInto_length p d h
  · rfl

theorem crcEngineFuel_length (p : List Bool) (hp : p ≠ []) :
    ∀ fuel d, (crcEngineFuel p fuel d).length = d.length := by
  intro fuel
  induction fuel with
  | zero => intro d; rfl
  | succ f ih =>
    intro d
    unfold crcEngineFuel
    split
    · rfl
    · rename_i hlen
      have hle : p.length ≤ d.length := Nat.le_of_not_lt hlen
      have hsl := stepXor_length p d hle
      have hpos : 0 < d.length :=
        lt_of_lt_of_le (List.length_pos.mpr hp) hle
      cases hs : stepXor p d with
      | nil => rw [hs] at hsl; simp at hsl; omega
      | cons b rest =>
        rw [hs] at hsl
        simp only [List.length_cons, ih rest]
        simp at hsl
        omega

theorem zx_self (a : List Bool) : zx a a = List.replicate a.length false := by
  induction a with
  | nil => rfl
  | cons x t ih => simpa [zx, List.replicate_succ] using ih

theorem zx_replicate_false_left (a : List Bool) :
    zx (List.replicate a.length false) a = a := by
  induction a with
  | nil => rfl
  | cons x t ih => simpa [zx, List.replicate_succ] using ih

theorem zx_replicate_false_right (a : List Bool) :
    zx a (List.replicate a.length false) = a := by
  induction a with
  | nil => rfl
  | cons x t ih => simpa [zx, List.replicate_succ] using ih

theorem zx_assoc (a b c : List Bool) : zx (zx a b) c = zx a (zx b c) := by
  induction a generalizing b c with
  | nil => rfl
  | cons x ta ih =>
    cases b with
    | nil => rfl
    | cons y tb =>
      cases c with
      | nil => rfl
      | cons z tc => simpa [zx] using ih tb tc

theorem zx_left_comm (a b c : List Bool) : zx a (zx b c) = zx b (zx a c) := by
  induction a generalizing b c with
  | nil => cases b <;> rfl
  | cons x ta ih =>
    cases b with
    | nil => rfl
    | cons y tb =>
      cases c with
      | nil => rfl
      | cons z tc =>
        simp [zx] at ih ⊢
        exact ⟨Bool.xor_left_comm x y z, ih tb tc⟩

theorem zx_cancel (p a b : List Bool)
    (hpa : p.length = a.length) (hab : a.length = b.length) :
    zx (zx p a) (zx p b) = zx a b := by
  induction p generalizing a b with
  | nil =>
    cases a with
    | nil =>
      cases b with
      | nil => rfl
      | cons z tb => simp at hab
    | cons y ta => simp at hpa
  | cons x tp ih =>
    cases a with
    | nil => simp at hpa
    | cons y ta =>
      cases b with
      | nil => simp at hab
      | cons z tb =>
        simp [zx] at ih ⊢
        constructor
        · cases x <;> cases y <;> cases z <;> rfl
        · exact ih ta tb (by simpa using hpa) (by simpa using hab)

theorem zx_take_right : ∀ p d : List Bool, zx p d = zx p (d.take p.length)
  | [], _ => rfl
  | _ :: _, [] => rfl
  | x :: tp, y :: td => by simp [zx]; exact zx_take_right tp td

theorem xorInto_eq_zx_aux (p dt dd : List Bool) (h : dt.length = p.length) :
    xorInto p (dt ++ dd) = zx (p ++ List.replicate dd.length false) (dt ++ dd) := by
  have htake : (dt ++ dd).take p.length = dt := by
    rw [← h]; exact List.take_left dt dd
  have hdrop : (dt ++ dd).drop p.length = dd := by
    rw [← h]; exact List.drop_left dt dd
  have hlhs : xorInto p (dt ++ dd) = zx p dt ++ dd := by
    unfold xorInto
    rw [zx_take_right, htake, hdrop]
  have hrhs : zx (p ++ List.replicate dd.length false) (dt ++ dd) =
      zx p dt ++ zx (List.replicate dd.length false) dd := by
    unfold zx
    exact List.zipWith_append _ p _ dt _ h.symm
  rw [hlhs, hrhs, zx_replicate_false_left dd]

theorem xorInto_eq_zx (p d : List Bool) (h : p.length ≤ d.length) :
    xorInto p d = zx (p ++ List.replicate (d.length - p.length) false) d := by
  have hsplit := List.take_append_drop p.length d
  have h1 : (d.take p.length).length = p.length := by simp; omega
  have h2 : (d.drop p.length).length = d.length - p.length := by simp
  calc xorInto p d = xorInto p (d.take p.length ++ d.drop p.length) := by
        rw [hsplit]
    _ = zx (p ++ List.replicate (d.drop p.length).length false)
          (d.take p.length ++ d.drop p.length) := xorInto_eq_zx_aux p _ _ h1
    _ = zx (p ++ List.replicate (d.length - p.length) false) d := by
        rw [h2, hsplit]

/-- The XOR mask that one outer-loop step applies to the whole buffer:
    the padded polynomial when the leading bit is 1, all-zeros otherwise. -/
def polyMask (p : List Bool) (len : Nat) (flag : Bool) : List Bool :=
  if flag then p ++ List.replicate (len - p.length) false
  else List.replicate len false

theorem polyMask_length (p : List Bool) (len : Nat) (flag : Bool)
    (h : p.length ≤ len) : (polyMask p len flag).length = len := by
  cases flag <;> simp [polyMask] <;> omega

theorem polyMask_zx (p : List Bool) (len : Nat) (h : p.length ≤ len)
    (f1 f2 : Bool) :
    zx (polyMask p len f1) (polyMask p len f2) = polyMask p len (xor f1 f2) := by
  have hlen : (p ++ List.replicate (len - p.length) false).length = len := by
    simp; omega
  have hlen2 : (List.replicate len false).length = len := by simp
  have e1 : zx (List.replicate len false) (List.replicate len false) =
      List.replicate len false := by
    have := zx_self (List.replicate len false); rwa [hlen2] at this
  have e2 : zx (p ++ List.replicate (len - p.length) false)
      (List.replicate len false) = p ++ List.replicate (len - p.length) false := by
    have := zx_replicate_false_right (p ++ List.replicate (len - p.length) false)
    rwa [hlen] at this
  have e3 : zx (List.replicate len false)
      (p ++ List.replicate (len - p.length) false) =
      p ++ List.replicate (len - p.length) false := by
    have := zx_replicate_false_left (p ++ List.replicate (len - p.length) false)
    rwa [hlen] at this
  have e4 : zx (p ++ List.replicate (len - p.length) false)
      (p ++ List.replicate (len - p.length) false) = List.replicate len false := by
    have := zx_self (p ++ List.replicate (len - p.length) false)
    rwa [hlen] at this
  cases f1 <;> cases f2 <;> simp [polyMask, e1, e2, e3, e4]

theorem stepXor_eq_mask (p d : List Bool) (h : p.length ≤ d.length) :
    stepXor p d = zx (polyMask p d.length (d.headD false)) d := by
  unfold stepXor polyMask
  cases hd : d.headD false
  · simp [zx_replicate_false_left d]
  · simp [xorInto_eq_zx p d h]


theorem zx_mix (m1 m2 a b : List Bool) (h1 : m1.length = a.length)
    (h2 : m2.length = a.length) (h3 : b.length = a.length) :
    zx (zx m1 a) (zx m2 b) = zx (zx m1 m2) (zx a b) := by
  induction a generalizing m1 m2 b with
  | nil =>
    rw [List.length_nil] at h1 h2 h3
    rw [List.eq_nil_of_length_eq_zero h1, List.eq_nil_of_length_eq_zero h2,
      List.eq_nil_of_length_eq_zero h3]
  | cons x ta ih =>
    cases m1 with
    | nil => simp at h1
    | cons u tm1 =>
      cases m2 with
      | nil => simp at h2
      | cons v tm2 =>
        cases b with
        | nil => simp at h3
        | cons y tb =>
          simp only [zx, List.zipWith_cons_cons, List.cons.injEq] at ih ⊢
          refine ⟨by cases u <;> cases v <;> cases x <;> cases y <;> rfl, ?_⟩
          exact ih tm1 tm2 tb (by simpa using h1) (by simpa using h2)
            (by simpa using h3)

theorem zx_headD (a b : List Bool) (ha : a ≠ []) (hb : b ≠ []) :
    (zx a b).headD false = xor (a.headD false) (b.headD false) := by
  cases a with
  | nil => exact absurd rfl ha
  | cons x ta =>
    cases b with
    | nil => exact absurd rfl hb
    | cons y tb => rfl

theorem stepXor_zx (p a b : List Bool) (hp : p ≠ [])
    (ha : p.length ≤ a.length) (hab : a.length = b.length) :
    stepXor p (zx a b) = zx (stepXor p a) (stepXor p b) := by
  have hpl : 0 < p.length := List.length_pos.mpr hp
  have hane : a ≠ [] := List.length_pos.mp (by omega)
  have hbne : b ≠ [] := List.length_pos.mp (by omega)
  have hlab : (zx a b).length = a.length := by
    rw [zx_length]; omega
  have hhead := zx_headD a b hane hbne
  have hblen : p.length ≤ b.length := by omega
  have hzlen : p.length ≤ (zx a b).length := by omega
  rw [stepXor_eq_mask p (zx a b) hzlen,
    stepXor_eq_mask p a ha,
    stepXor_eq_mask p b hblen,
    hlab, hhead]
  have hb_len : polyMask p b.length (b.headD false) =
      polyMask p a.length (b.headD false) := by rw [hab]
  rw [hb_len]
  rw [zx_mix (polyMask p a.length (a.headD false))
      (polyMask p a.length (b.headD false)) a b
      (polyMask_length p a.length _ ha) (polyMask_length p a.length _ ha)
      hab.symm]
  rw [polyMask_zx p a.length ha]

theorem crcEngineFuel_replicate (p r : List Bool) (hr : r.length < p.length) :
    ∀ fuel L, crcEngineFuel p fuel (List.replicate L false ++ r) =
      List.replicate L false ++ r := by
  intro fuel
  induction fuel with
  | zero => intro L; rfl
  | succ f ih =>
    intro L
    unfold crcEngineFuel
    split
    · rfl
    · rename_i hlen
      simp only [List.length_append, List.length_replicate] at hlen
      have hL : 1 ≤ L := by omega
      obtain ⟨L', rfl⟩ : ∃ L', L = L' + 1 := ⟨L - 1, by omega⟩
      have hcons : List.replicate (L' + 1) false ++ r =
          false :: (List.replicate L' false ++ r) := by
        simp [List.replicate_succ]
      rw [hcons]
      have hstep : stepXor p (false :: (List.replicate L' false ++ r)) =
          false :: (List.replicate L' false ++ r) := by
        unfold stepXor
        simp
      rw [hstep]
      show false :: crcEngineFuel p f (List.replicate L' false ++ r) =
        false :: (List.replicate L' false ++ r)
      rw [ih L']

theorem stepXor_headD (p d : List Bool) (hh : p.headD false = true)
    (h : p.length ≤ d.length) (hd : d ≠ []) :
    (stepXor p d).headD false = false := by
  cases p with
  | nil => simp at hh
  | cons pb pt =>
    cases d with
    | nil => exact absurd rfl hd
    | cons x td =>
      simp only [List.headD_cons] at hh
      subst hh
      cases x
      · simp [stepXor]
      · simp [stepXor, xorInto, zx]

theorem crcEngineFuel_take_zeros (p : List Bool) (hh : p.headD false = true) :
    ∀ fuel d, d.length - (p.length - 1) ≤ fuel →
      (crcEngineFuel p fuel d).take (d.length - (p.length - 1)) =
        List.replicate (d.length - (p.length - 1)) false := by
  have hp : p ≠ [] := by
    intro hnil; rw [hnil] at hh; simp at hh
  have hpl : 0 < p.length := List.length_pos.mpr hp
  intro fuel
  induction fuel with
  | zero =>
    intro d hf
    have : d.length - (p.length - 1) = 0 := by omega
    rw [this]
    rfl
  | succ f ih =>
    intro d hf
    by_cases hk : d.length - (p.length - 1) = 0
    · rw [hk]; rfl
    · have hdlen : p.length ≤ d.length := by omega
      have hdne : d ≠ [] := List.length_pos.mp (by omega)
      unfold crcEngineFuel
      rw [if_neg (by omega)]
      have hslen : (stepXor p d).length = d.length := stepXor_length p d hdlen
      have hshead : (stepXor p d).headD false = false :=
        stepXor_headD p d hh hdlen hdne
      cases hs : stepXor p d with
      | nil => rw [hs] at hslen; simp at hslen; omega
      | cons b rest =>
        rw [hs] at hshead hslen
        simp only [List.headD_cons] at hshead
        subst hshead
        simp only [List.length_cons] at hslen
        have hrest : rest.length - (p.length - 1) ≤ f := by omega
        have hrec := ih rest hrest
        obtain ⟨k', hk'⟩ : ∃ k', d.length - (p.length - 1) = k' + 1 :=
          ⟨d.length - (p.length - 1) - 1, by omega⟩
        rw [hk']
        have hkrest : rest.length - (p.length - 1) = k' := by omega
        rw [hkrest] at hrec
        simp only [List.take_succ_cons, List.replicate_succ, List.cons.injEq]
        exact ⟨trivial, hrec⟩

theorem crcEngineFuel_zx (p : List Bool) (hp : p ≠ []) :
    ∀ fuel a b, a.length = b.length →
      crcEngineFuel p fuel (zx a b) =
        zx (crcEngineFuel p fuel a) (crcEngineFuel p fuel b) := by
  intro fuel
  induction fuel with
  | zero => intro a b _; rfl
  | succ f ih =>
    intro a b hab
    have hlab : (zx a b).length = a.length := by rw [zx_length]; omega
    by_cases hlen : a.length < p.length
    · unfold crcEngineFuel
      rw [if_pos (by omega), if_pos (by omega), if_pos (by omega)]
    · have hle : p.length ≤ a.length := Nat.le_of_not_lt hlen
      have hpl : 0 < p.length := List.length_pos.mpr hp
      unfold crcEngineFuel
      rw [if_neg (by omega), if_neg (by omega), if_neg (by omega)]
      rw [stepXor_zx p a b hp hle hab]
      have hsa : (stepXor p a).length = a.length := stepXor_length p a hle
      have hsb : (stepXor p b).length = b.length := stepXor_length p b (by omega)
      cases hsa' : stepXor p a with
      | nil => rw [hsa'] at hsa; simp at hsa; omega
      | cons x ta' =>
        cases hsb' : stepXor p b with
        | nil => rw [hsb'] at hsb; simp at hsb; omega
        | cons y tb' =>
          rw [hsa'] at hsa
          rw [hsb'] at hsb
          simp only [List.length_cons] at hsa hsb
          have hmain := ih ta' tb' (by omega)
          simp only [zx, List.zipWith_cons_cons]
          show xor x y :: crcEngineFuel p f (List.zipWith xor ta' tb') =
            xor x y :: List.zipWith xor (crcEngineFuel p f ta') (crcEngineFuel p f tb')
          exact congrArg (fun l => xor x y :: l) hmain

theorem polyBits_ne_nil : polyBits ≠ [] := by
  intro h
  have := polyBits_length
  rw [h] at this
  simp at this

theorem bitsToNat_replicate_false : ∀ n, bitsToNat (List.replicate n false) = 0 := by
  intro n
  induction n with
  | zero => rfl
  | succ m ih =>
    rw [List.replicate_succ]
    show (List.replicate m false).foldl
      (fun a b => 2 * a + (if b then 1 else 0)) (2 * 0 + 0) = 0
    simpa [bitsToNat] using ih

theorem generate_crc_eq_drop (data : List Bool) :
    generate_crc data =
      (crcEngineFuel polyBits (data.length + 32)
        (data ++ List.replicate 32 false)).drop data.length := by
  have hElen : (crcEngineFuel polyBits (data.length + 32)
      (data ++ List.replicate 32 false)).length = data.length + 32 := by
    rw [crcEngineFuel_length polyBits polyBits_ne_nil]
    simp
  have hA : (data ++ List.replicate 32 false).length = data.length + 32 := by simp
  unfold generate_crc crc_division_engine
  rw [polyBits_length]
  show zfill (33 - 1)
      (lastSlice (33 - 1)
        (crcEngineFuel polyBits (data ++ List.replicate (33 - 1) false).length
          (data ++ List.replicate (33 - 1) false))) = _
  have h32 : (33 : Nat) - 1 = 32 := rfl
  rw [h32, hA]
  unfold lastSlice
  rw [if_neg (by omega), hElen]
  have hdl : data.length + 32 - 32 = data.length := by omega
  rw [hdl]
  unfold zfill
  have hdrop : ((crcEngineFuel polyBits (data.length + 32)
      (data ++ List.replicate 32 false)).drop data.length).length = 32 := by
    rw [List.length_drop, hElen]
    omega
  rw [hdrop]
  simp

/-- Claim C7: generate_crc always returns exactly 32 bits (leading zeros of
    the remainder are preserved by the zfill, never stripped). -/
theorem generate_crc_length (data : List Bool) :
    (generate_crc data).length = 32 := by
  rw [generate_crc_eq_drop]
  rw [List.length_drop, crcEngineFuel_length polyBits polyBits_ne_nil]
  simp

/-- Claim C2: for every bit string data, check_crc applied to
    data ++ generate_crc data returns the integer 0. -/
theorem check_crc_roundtrip (data : List Bool) :
    check_crc (data ++ generate_crc data) = .ok 0 := by
  set L := data.length with hL
  set A := data ++ List.replicate 32 false with hA
  have hAlen : A.length = L + 32 := by simp [hA]
  set E := crcEngineFuel polyBits (L + 32) A with hE
  have hElen : E.length = L + 32 := by
    rw [hE, crcEngineFuel_length polyBits polyBits_ne_nil, hAlen]
  set R := E.drop L with hR
  have hRlen : R.length = 32 := by rw [hR, List.length_drop, hElen]; omega
  have hgen : generate_crc data = R := generate_crc_eq_drop data
  have htakeE : E.take L = List.replicate L false := by
    have := crcEngineFuel_take_zeros polyBits polyBits_headD (L + 32) A
      (by rw [hAlen, polyBits_length]; omega)
    rw [← hE] at this
    rw [hAlen, polyBits_length] at this
    simpa using this
  have hEsplit : E = List.replicate L false ++ R := by
    conv_lhs => rw [← List.take_append_drop L E]
    rw [htakeE, hR]
  have hframe : zx A (List.replicate L false ++ R) = data ++ R := by
    rw [hA]
    have hz : zx (data ++ List.replicate 32 false) (List.replicate L false ++ R) =
        zx data (List.replicate L false) ++ zx (List.replicate 32 false) R := by
      unfold zx
      exact List.zipWith_append _ data _ _ _ (by simp [hL])
    rw [hz]
    have h1 : zx data (List.replicate L false) = data := by
      rw [hL]; exact zx_replicate_false_right data
    have h2 : zx (List.replicate 32 false) R = R := by
      rw [show (32 : Nat) = R.length from hRlen.symm]
      exact zx_replicate_false_left R
    rw [h1, h2]
  have hlin : crcEngineFuel polyBits (L + 32) (data ++ R) =
      List.replicate (L + 32) false := by
    rw [← hframe]
    rw [crcEngineFuel_zx polyBits polyBits_ne_nil (L + 32) A
      (List.replicate L false ++ R) (by simp [hAlen, hRlen])]
    rw [← hE]
    rw [crcEngineFuel_replicate polyBits R
      (by rw [hRlen, polyBits_length]; omega) (L + 32) L]
    rw [hEsplit]
    have := zx_self (List.replicate L false ++ R)
    rwa [show (List.replicate L false ++ R).length = L + 32 from by
      simp [hRlen]] at this
  rw [hgen]
  unfold check_crc crc_division_engine
  rw [polyBits_length]
  have hflen : (data ++ R).length = L + 32 := by simp [hL, hRlen]
  rw [hflen, hlin]
  have hslice : lastSlice (33 - 1) (List.replicate (L + 32) false) =
      List.replicate 32 false := by
    unfold lastSlice
    rw [if_neg (by omega), List.length_replicate, List.drop_replicate]
    rw [show L + 32 - (L + 32 - (33 - 1)) = 32 from by omega]
  rw [hslice]
  rfl

theorem crcEngineFuel_short (p : List Bool) (fuel : Nat) (d : List Bool)
    (h : d.length < p.length) : crcEngineFuel p fuel d = d := by
  cases fuel with
  | zero => rfl
  | succ f =>
    unfold crcEngineFuel
    rw [if_pos h]

/-- Claim C10: a non-empty frame shorter than the 33-bit polynomial makes
    the division loop run zero iterations, so check_crc returns the integer
    value of the frame itself; the empty frame instead hits
    `int('', 2)` and raises ValueError. -/
theorem check_crc_short_frames :
    (∀ frame : List Bool, frame ≠ [] → frame.length < 33 →
      check_crc frame = .ok (bitsToNat frame)) ∧
    check_crc [] = .error .valueError := by
  constructor
  · intro frame hne hlen
    have heng : crcEngineFuel polyBits frame.length frame = frame :=
      crcEngineFuel_short polyBits frame.length frame
        (by rw [polyBits_length]; exact hlen)
    unfold check_crc crc_division_engine
    rw [polyBits_length, heng]
    have hslice : lastSlice (33 - 1) frame = frame := by
      unfold lastSlice
      rw [if_neg (by omega)]
      rw [show frame.length - (33 - 1) = 0 from by omega]
      exact List.drop_zero frame
    rw [hslice]
    cases frame with
    | nil => exact absurd rfl hne
    | cons x t => rfl
  · rfl

/-- Claim C10, witness: the first part applied to the 3-bit frame "101". -/
theorem check_crc_short_frames_witness :
    check_crc [true, false, true] = .ok 5 :=
  check_crc_short_frames.1 [true, false, true] (by decide) (by decide)

/-
  binary_to_text (src/Utilidades/utils.py, lines 17-35).
-/

/-- The byte-grouping of the decoder: slices of 8 from the front (a final
    shorter slice kept as-is, as Python range slicing does). -/
def chunk8 : List Bool → List (List Bool)
  | [] => []
  | a :: b :: c :: d :: e :: f :: g :: h :: rest =>
    [a, b, c, d, e, f, g, h] :: chunk8 rest
  | rest => [rest]

/-- `binary_to_text`: truncate to whole bytes, decode each 8-bit group with
    `int(_, 2)`, keep only the nonzero byte values (characters modelled by
    their code points). -/
def binary_to_text (s : List Bool) : List Nat :=
  let padding := s.length % 8
  let s2 := if padding ≠ 0 then s.take (s.length - padding) else s
  (chunk8 s2).filterMap
    (fun c => if bitsToNat c ≠ 0 then some (bitsToNat c) else none)

/-- The claim's reading of the decoder, stated in its own words: first
    discard any trailing partial group of fewer than 8 bits, then decode
    each remaining 8-bit group MSB-first, omitting every byte whose value
    is exactly zero. -/
def binaryToTextSpec (s : List Bool) : List Nat :=
  ((chunk8 (s.take (8 * (s.length / 8)))).map bitsToNat).filter
    (fun v => decide (v ≠ 0))

theorem filterMap_if_eq_filter_map (l : List (List Bool)) :
    l.filterMap (fun c => if bitsToNat c ≠ 0 then some (bitsToNat c) else none) =
      (l.map bitsToNat).filter (fun v => decide (v ≠ 0)) := by
  induction l with
  | nil => rfl
  | cons c t ih =>
    by_cases h : bitsToNat c = 0 <;>
      simp [List.filterMap_cons, List.filter_cons, h] at ih ⊢ <;> exact ih

/-- Claim C9: binary_to_text discards the trailing partial byte, decodes
    the remaining 8-bit groups MSB-first, and omits exactly the zero
    bytes — equal to the claim's own description of the algorithm. -/
theorem binary_to_text_eq_spec (s : List Bool) :
    binary_to_text s = binaryToTextSpec s := by
  unfold binary_to_text binaryToTextSpec
  have hdm := Nat.div_add_mod s.length 8
  have hs2 : (if s.length % 8 ≠ 0 then s.take (s.length - s.length % 8) else s) =
      s.take (8 * (s.length / 8)) := by
    by_cases h : s.length % 8 = 0
    · rw [if_neg (by simp [h])]
      rw [show 8 * (s.length / 8) = s.length from by omega]
      exact (List.take_length s).symm
    · rw [if_pos h]
      congr 1
      omega
  show List.filterMap
      (fun c => if bitsToNat c ≠ 0 then some (bitsToNat c) else none)
      (chunk8 (if s.length % 8 ≠ 0 then
        List.take (s.length - s.length % 8) s else s)) =
    List.filter (fun v => decide (v ≠ 0))
      (List.map bitsToNat (chunk8 (List.take (8 * (s.length / 8)) s)))
  rw [hs2, filterMap_if_eq_filter_map]
